import Mathlib

/-!
Verification of the FlowState DAG scheduling and execution engine.

The definitions below are a shallow embedding of the Python source:
  * `topological_sort` embeds `src/tasks/utils.py : topological_sort`
  * `execute_dag` embeds the scheduling part of
    `src/tasks/views.py : TaskViewSet.execute_dag`
  * `execute_task_inv` and `runFrom` embed
    `src/tasks/tasks.py : execute_task` together with the Celery retry
    redelivery loop (`max_retries=3`, `countdown=2**retries`).
Machine state (Django model rows) is passed explicitly; `timezone.now()`
is modelled by a clock function `clk : Nat → Nat` sampled at successive
indices.
-/

namespace FlowState

/-- Scheduler view of a Task row: its id and the ids of its
    `dependencies` many-to-many field (`[d.id for d in t.dependencies.all()]`). -/
structure STask where
  id : Nat
  deps : List Nat
  deriving DecidableEq, Repr

/-- Embeds `nodes = {t.id: t for t in tasks}` — a Python dict keeps the position of
    the first occurrence of a key and the value of the last occurrence.
    Represented as an association list of tasks keyed by `id`. -/
def nodesOf (tasks : List STask) : List STask :=
  tasks.foldl
    (fun acc t =>
      if acc.any (fun u => u.id = t.id) then
        acc.map (fun u => if u.id = t.id then t else u)
      else acc ++ [t])
    []

/-- Embeds `indegree = defaultdict(int); for t in tasks: indegree[t.id] += len(deps)`.
    Values are Python ints, so `Int` (decrements in the loop may go below 0). -/
def buildIndegree (tasks : List STask) : Nat → Int :=
  tasks.foldl
    (fun ind t => fun i => if i = t.id then ind i + t.deps.length else ind i)
    (fun _ => 0)

/-- Embeds `adj = defaultdict(list); for t in tasks: for d in deps: adj[d].append(t.id)`. -/
def buildAdj (tasks : List STask) : Nat → List Nat :=
  tasks.foldl
    (fun adj t =>
      t.deps.foldl (fun adj d => fun j => if j = d then adj j ++ [t.id] else adj j) adj)
    (fun _ => [])

/-- Body of `while q:` — pop `n` from the left, append it to `result_ids`,
    decrement `indegree[m]` for each `m in adj[n]`, appending `m` to the
    queue when its indegree reaches 0.  The Python loop needs no fuel; the
    fuel argument here is a termination bound that is never exhausted when
    called with fuel `tasks.length + 1` (each id enters the queue at most
    once, because an indegree cell only decreases and so crosses 0 at most
    once). -/
def kahnLoop (adj : Nat → List Nat) :
    Nat → List Nat → (Nat → Int) → List Nat → List Nat
  | 0, _, _, res => res
  | _ + 1, [], _, res => res
  | fuel + 1, n :: rest, ind, res =>
      let st := (adj n).foldl
        (fun (p : (Nat → Int) × List Nat) m =>
          let ind1 : Nat → Int := fun i => if i = m then p.1 i - 1 else p.1 i
          (ind1, if ind1 m = 0 then p.2 ++ [m] else p.2))
        (ind, rest)
      kahnLoop adj fuel st.2 st.1 (res ++ [n])

/-- Embeds `src/tasks/utils.py : topological_sort`.  Returns the tasks in
    topological order or the `ValueError` message raised on a short output. -/
def topological_sort (tasks : List STask) : Except String (List STask) :=
  let nodes := nodesOf tasks
  let indegree := buildIndegree tasks
  let adj := buildAdj tasks
  let q := (nodes.map (·.id)).filter (fun nid => indegree nid = 0)
  let result_ids := kahnLoop adj (tasks.length + 1) q indegree []
  if result_ids.length = nodes.length then
    .ok (result_ids.filterMap (fun i => nodes.find? (fun t => t.id = i)))
  else
    .error "Cycle detected in task dependencies"

/-- Response of the `execute_dag` action (`src/tasks/views.py`). -/
inductive DagResponse where
  | noPending
  | badRequest (msg : String)
  | enqueued (taskIds : List Nat)
  deriving DecidableEq, Repr

/-- Embeds `TaskViewSet.execute_dag` restricted to the scheduling/enqueue logic:
    the input is the workspace's pending task list; the second component is
    the list of task ids passed to `execute_task.delay`, in order. -/
def execute_dag (tasks : List STask) : DagResponse × List Nat :=
  if tasks.isEmpty then (.noPending, [])
  else
    match topological_sort tasks with
    | .error e => (.badRequest e, [])
    | .ok ordered => (.enqueued (ordered.map (·.id)), ordered.map (·.id))

/-- The ids of the input tasks, in input order. -/
def idsOf (tasks : List STask) : List Nat := tasks.map (·.id)

/-- The dependency id set of the (unique) input task with id `i`. -/
def depsOf (tasks : List STask) (i : Nat) : List Nat :=
  match tasks.find? (fun t => t.id = i) with
  | some t => t.deps
  | none => []

/-- Well-formedness of a scheduler input, as the Django ORM guarantees it:
    a query set has distinct rows (distinct ids) and a `ManyToManyField`
    yields each dependency id at most once. -/
structure SchedOK (tasks : List STask) : Prop where
  idsNodup : (idsOf tasks).Nodup
  depsNodup : ∀ t ∈ tasks, t.deps.Nodup

/-- The input set is dependency-closed: every edge stays inside the set. -/
def DepsClosed (tasks : List STask) : Prop :=
  ∀ t ∈ tasks, ∀ d ∈ t.deps, d ∈ idsOf tasks

/-- A dependency cycle inside the task set: a chain of tasks, each a
    dependency of the next, that returns to its starting id. -/
def HasCycle (tasks : List STask) : Prop :=
  ∃ a c, List.Chain (fun x y => x ∈ depsOf tasks y) a (c ++ [a])

/-- Invariant of the Kahn queue loop.  `q` is the current frontier, `res`
    the emitted ids, `ind` the current indegree table. -/
structure LoopInv (tasks : List STask) (q res : List Nat) (ind : Nat → Int) : Prop where
  resNodup : res.Nodup
  qNodup : q.Nodup
  disj : ∀ i ∈ res, i ∉ q
  resIds : ∀ i ∈ res, i ∈ idsOf tasks
  qIds : ∀ i ∈ q, i ∈ idsOf tasks
  indSpec : ∀ i ∈ idsOf tasks,
    ind i = ((depsOf tasks i).length : Int) -
      (((depsOf tasks i).filter (fun d => d ∈ res)).length : Int)
  qReady : ∀ i ∈ q, ∀ d ∈ depsOf tasks i, d ∈ res
  resClosed : ∀ i ∈ res, ∀ d ∈ depsOf tasks i, d ∈ res
  complete : ∀ i ∈ idsOf tasks, (∀ d ∈ depsOf tasks i, d ∈ res) → i ∈ res ∨ i ∈ q
  ordered : ∀ (k : Nat) (h : k < res.length),
    ∀ d ∈ depsOf tasks (res[k]), d ∈ res.take k

/-- The seed frontier `q = deque([nid for nid in nodes if indegree[nid] == 0])`:
    the ids with zero initial indegree, in dict (= first-occurrence) order. -/
def initialFrontier (tasks : List STask) : List Nat :=
  ((nodesOf tasks).map (·.id)).filter (fun nid => buildIndegree tasks nid = 0)

/-! ## Execution engine (`src/tasks/tasks.py : execute_task`) -/

/-- Status choices of `Task` (`src/tasks/models.py`). -/
inductive TStatus where
  | pending
  | running
  | done
  | failed
  deriving DecidableEq, Repr

/-- The mutable fields of a Task row that `execute_task` touches. -/
structure MTask where
  id : Nat
  status : TStatus
  started_at : Option Nat
  completed_at : Option Nat
  deriving DecidableEq, Repr

/-- Status choices of `TaskResult`. -/
inductive RStatus where
  | success
  | failure
  | retry
  deriving DecidableEq, Repr

/-- A `TaskResult` row created by `execute_task`. -/
structure MResult where
  taskId : Nat
  status : RStatus
  output : String
  error_message : String
  retry_count : Nat
  completed_at : Nat
  deriving DecidableEq, Repr

/-- Embeds `@shared_task(bind=True, max_retries=3)`. -/
def maxRetries : Nat := 3

/-- Embeds `self.request.retries < self.max_retries` — the retry gate. -/
def shouldRetry (retries : Nat) : Bool := retries < maxRetries

/-- Embeds `countdown=2 ** self.request.retries` — the exponential backoff. -/
def backoffCountdown (retries : Nat) : Nat := 2 ^ retries

/-- How one Celery invocation of `execute_task` terminates. -/
inductive InvocationEnd where
  | returned (ok : Bool)
  | retryRaised (countdown : Nat)
  | escaped (msg : String)
  deriving DecidableEq, Repr

/-- Observable effects of one invocation: final in-memory task row, the
    `TaskResult` rows it created (in order), the successive `task.save()`
    snapshots, the statuses successfully published via `group_send`, and
    how control left the function. -/
structure InvOut where
  task : MTask
  results : List MResult
  saves : List MTask
  pubs : List String
  fin : InvocationEnd
  deriving DecidableEq, Repr

/-- The `except Exception as exc:` branch of `execute_task`, entered with
    the current in-memory task row and the state written so far.  `errMsg`
    is `str(exc)`.  The final `group_send` is inside the `except` block and
    not guarded, so its failure propagates (`escaped`). -/
def exceptBranch (cur : MTask) (resultsAcc : List MResult) (savesAcc : List MTask)
    (pubsAcc : List String) (errMsg : String) (retries : Nat)
    (pubFailFails : Bool) (clk : Nat → Nat) (k : Nat) : InvOut :=
  if shouldRetry retries then
    { task := cur, results := resultsAcc, saves := savesAcc, pubs := pubsAcc,
      fin := .retryRaised (backoffCountdown retries) }
  else
    let t2 : MTask := { cur with status := .failed, completed_at := some (clk k) }
    let r : MResult :=
      { taskId := cur.id, status := .failure, output := "",
        error_message := errMsg, retry_count := retries,
        completed_at := clk (k + 1) }
    if pubFailFails then
      { task := t2, results := resultsAcc ++ [r], saves := savesAcc ++ [t2],
        pubs := pubsAcc, fin := .escaped "TransportUnavailable" }
    else
      { task := t2, results := resultsAcc ++ [r], saves := savesAcc ++ [t2],
        pubs := pubsAcc ++ ["failed"], fin := .returned false }

/-- One Celery invocation of `execute_task` on a loaded task row.
    `retries` is `self.request.retries`; `workFails` is the outcome of the
    simulated unit of work (`random.random() < 0.1` in the demo executor);
    each `pub*Fails` flag makes the corresponding `group_send` raise.
    `timezone.now()` calls are modelled as `clk k`, `clk (k+1)`, … in call
    order.  Note the control flow copied from the source: the `running`
    publish is outside any `try` (its failure escapes), while the `done`
    publish sits inside the `try` (its failure is caught by the generic
    `except` and handled as an attempt failure). -/
def execute_task_inv (task : MTask) (retries : Nat)
    (workFails pubRunFails pubDoneFails pubFailFails : Bool)
    (clk : Nat → Nat) (k : Nat) : InvOut :=
  let t1 : MTask := { task with status := .running, started_at := some (clk k) }
  if pubRunFails then
    { task := t1, results := [], saves := [t1], pubs := [],
      fin := .escaped "TransportUnavailable" }
  else if workFails then
    exceptBranch t1 [] [t1] ["running"] "Simulated random failure" retries
      pubFailFails clk (k + 1)
  else
    let t2 : MTask := { t1 with status := .done, completed_at := some (clk (k + 1)) }
    let r : MResult :=
      { taskId := task.id, status := .success,
        output := "Task " ++ toString task.id ++ " completed successfully",
        error_message := "", retry_count := retries,
        completed_at := clk (k + 2) }
    if pubDoneFails then
      exceptBranch t2 [r] [t1, t2] ["running"] "TransportUnavailable" retries
        pubFailFails clk (k + 3)
    else
      { task := t2, results := [r], saves := [t1, t2],
        pubs := ["running", "done"], fin := .returned true }

/-- Wrapper adding the initial `Task.objects.get(pk=task_id)` lookup:
    a missing row returns the error dict (`none` here) without touching any
    state. -/
def execute_task (taskRow : Option MTask) (retries : Nat)
    (workFails pubRunFails pubDoneFails pubFailFails : Bool)
    (clk : Nat → Nat) (k : Nat) : Option InvOut :=
  match taskRow with
  | none => none
  | some task =>
      some (execute_task_inv task retries workFails pubRunFails pubDoneFails
        pubFailFails clk k)

/-- Aggregate of a full run of one task through Celery redelivery. -/
structure RunOut where
  task : MTask
  results : List MResult
  saves : List MTask
  attempts : List Nat
  fin : InvocationEnd
  deriving DecidableEq, Repr

/-- Celery redelivery loop: while an invocation raises `self.retry`, the
    broker re-invokes `execute_task` with `retries + 1` after the countdown.
    The fuel `maxRetries + 1` bounds redeliveries, because `retryRaised`
    requires `retries < maxRetries`.  `wf i` is the work outcome of attempt
    `i`; the transport is healthy.  The clock cursor advances by 5 per
    invocation, an upper bound on its `timezone.now()` calls. -/
def runFrom (wf : Nat → Bool) (clk : Nat → Nat) :
    Nat → Nat → Nat → MTask → List MResult → RunOut
  | 0, _, _, task, results =>
      { task := task, results := results, saves := [], attempts := [],
        fin := .returned false }
  | fuel + 1, retries, k, task, results =>
      let o := execute_task_inv task retries (wf retries) false false false clk k
      match o.fin with
      | .retryRaised _ =>
          let rest := runFrom wf clk fuel (retries + 1) (k + 5) o.task
            (results ++ o.results)
          { task := rest.task, results := rest.results,
            saves := o.saves ++ rest.saves,
            attempts := retries :: rest.attempts, fin := rest.fin }
      | e =>
          { task := o.task, results := results ++ o.results, saves := o.saves,
            attempts := [retries], fin := e }

/-- A full execution of one task, starting from attempt index 0. -/
def runTask (wf : Nat → Bool) (clk : Nat → Nat) (task : MTask) : RunOut :=
  runFrom wf clk (maxRetries + 1) 0 0 task []

/-- The timestamp/status invariant of the spec: a `done` or `failed` row
    carries both timestamps with `started_at ≤ completed_at`. -/
def TaskInv (t : MTask) : Prop :=
  t.status = .done ∨ t.status = .failed →
    ∃ s c, t.started_at = some s ∧ t.completed_at = some c ∧ s ≤ c


section SchedLemmas

/-- With distinct ids, `find?` on a member's id returns that member. -/
theorem find?_id_self {tasks : List STask} (hnd : (idsOf tasks).Nodup)
    {t : STask} (ht : t ∈ tasks) :
    tasks.find? (fun u => u.id = t.id) = some t := by
  induction tasks with
  | nil => cases ht
  | cons a l ih =>
    simp only [idsOf, List.map_cons, List.nodup_cons] at hnd
    rcases List.mem_cons.1 ht with rfl | hmem
    · simp [List.find?]
    · have hne : ¬ (a.id = t.id) := by
        intro h
        exact hnd.1 (h ▸ List.mem_map_of_mem (·.id) hmem)
      simp only [List.find?, hne, decide_eq_true_eq, decide_eq_false hne]
      exact ih hnd.2 hmem

theorem depsOf_mem {tasks : List STask} (hnd : (idsOf tasks).Nodup)
    {t : STask} (ht : t ∈ tasks) : depsOf tasks t.id = t.deps := by
  unfold depsOf
  rw [find?_id_self hnd ht]

/-- Values of `depsOf` are nonempty only for ids of the set. -/
theorem mem_ids_of_depsOf_ne_nil {tasks : List STask} {i : Nat}
    (h : depsOf tasks i ≠ []) : i ∈ idsOf tasks := by
  unfold depsOf at h
  cases hf : tasks.find? (fun t => t.id = i) with
  | none => rw [hf] at h; exact absurd rfl h
  | some t =>
    have hmem := List.mem_of_find?_eq_some hf
    have hp := List.find?_some hf
    simp only [decide_eq_true_eq] at hp
    exact hp ▸ List.mem_map_of_mem (·.id) hmem

/-- Deps of a task of a closed set lie inside the id set. -/
theorem depsOf_subset {tasks : List STask} (hcl : DepsClosed tasks)
    {i d : Nat} (hd : d ∈ depsOf tasks i) : d ∈ idsOf tasks := by
  unfold depsOf at hd
  cases hf : tasks.find? (fun t => t.id = i) with
  | none => rw [hf] at hd; cases hd
  | some t =>
    rw [hf] at hd
    exact hcl t (List.mem_of_find?_eq_some hf) d hd

/-- Values of `depsOf` are nodup under `SchedOK`. -/
theorem depsOf_nodup {tasks : List STask} (S : SchedOK tasks) (i : Nat) :
    (depsOf tasks i).Nodup := by
  unfold depsOf
  cases hf : tasks.find? (fun t => t.id = i) with
  | none => exact List.nodup_nil
  | some t => exact S.depsNodup t (List.mem_of_find?_eq_some hf)

/-- With distinct ids, filtering a member's id keeps exactly that member. -/
theorem filter_id_single {tasks : List STask} (hnd : (idsOf tasks).Nodup)
    {t : STask} (ht : t ∈ tasks) :
    tasks.filter (fun u => u.id = t.id) = [t] := by
  induction tasks with
  | nil => cases ht
  | cons a l ih =>
    simp only [idsOf, List.map_cons, List.nodup_cons] at hnd
    rcases List.mem_cons.1 ht with rfl | hmem
    · have hnil : l.filter (fun u => u.id = t.id) = [] := by
        rw [List.filter_eq_nil_iff]
        intro u hu
        simp only [decide_eq_true_eq]
        intro h
        exact hnd.1 (h ▸ List.mem_map_of_mem (·.id) hu)
      simp [List.filter_cons, hnil]
    · have hne : ¬ (a.id = t.id) := by
        intro h
        exact hnd.1 (h ▸ List.mem_map_of_mem (·.id) hmem)
      simp only [List.filter_cons, decide_eq_false hne, Bool.false_eq_true, if_false]
      exact ih hnd.2 hmem

/-- Filtering for a fixed value in a nodup list keeps exactly one copy. -/
theorem filter_eq_single_of_nodup {l : List Nat} (hl : l.Nodup) {j : Nat}
    (hj : j ∈ l) : l.filter (fun d => d = j) = [j] := by
  induction l with
  | nil => cases hj
  | cons d ds ih =>
    simp only [List.nodup_cons] at hl
    rcases List.mem_cons.1 hj with rfl | hmem
    · have hnil : ds.filter (fun x => x = j) = [] := by
        rw [List.filter_eq_nil_iff]
        intro x hx
        simp only [decide_eq_true_eq]
        intro h
        exact hl.1 (h ▸ hx)
      simp [List.filter_cons, hnil]
    · have hne : ¬ (d = j) := fun h => hl.1 (h ▸ hmem)
      simp only [List.filter_cons, decide_eq_false hne, Bool.false_eq_true, if_false]
      exact ih hl.2 hmem

/-- Filtering for an absent value gives the empty list. -/
theorem filter_eq_nil_of_not_mem {l : List Nat} {j : Nat} (hj : j ∉ l) :
    l.filter (fun d => d = j) = [] := by
  rw [List.filter_eq_nil_iff]
  intro x hx
  simp only [decide_eq_true_eq]
  intro h
  exact hj (h ▸ hx)

/-- A Python dict built from rows with distinct keys is the row list itself. -/
theorem nodesOf_eq_self {tasks : List STask} (hnd : (idsOf tasks).Nodup) :
    nodesOf tasks = tasks := by
  suffices h : ∀ (ts acc : List STask), (idsOf (acc ++ ts)).Nodup →
      ts.foldl
        (fun acc t =>
          if acc.any (fun u => u.id = t.id) then
            acc.map (fun u => if u.id = t.id then t else u)
          else acc ++ [t]) acc = acc ++ ts by
    have h0 := h tasks [] (by simpa using hnd)
    unfold nodesOf
    rw [h0]
    simp
  intro ts
  induction ts with
  | nil => intro acc _; simp
  | cons t ts ih =>
    intro acc hnd'
    have hnotin : t.id ∉ acc.map (·.id) := by
      have hx := hnd'
      simp only [idsOf, List.map_append, List.nodup_append, List.map_cons,
        List.nodup_cons] at hx
      intro hc
      exact hx.2.2 hc (List.mem_cons_self _ _)
    have hany : acc.any (fun u => u.id = t.id) = false := by
      rw [List.any_eq_false]
      intro u hu
      simp only [decide_eq_true_eq]
      intro h
      exact hnotin (h ▸ List.mem_map_of_mem (·.id) hu)
    rw [List.foldl_cons, hany]
    simp only [Bool.false_eq_true, if_false]
    have hrec := ih (acc ++ [t]) (by simpa using hnd')
    rw [hrec, List.append_assoc]
    simp

/-- Closed form of the indegree dict built by the first loop. -/
theorem buildIndegree_apply (tasks : List STask) (i : Nat) :
    buildIndegree tasks i =
      ((tasks.filter (fun t => t.id = i)).map (fun t => (t.deps.length : Int))).sum := by
  suffices h : ∀ (ts : List STask) (f : Nat → Int),
      (ts.foldl
        (fun ind t => fun j => if j = t.id then ind j + (t.deps.length : Int) else ind j) f) i =
        f i + ((ts.filter (fun t => t.id = i)).map (fun t => (t.deps.length : Int))).sum by
    have h0 := h tasks (fun _ => 0)
    unfold buildIndegree
    rw [h0]
    simp
  intro ts
  induction ts with
  | nil => intro f; simp
  | cons t ts ih =>
    intro f
    rw [List.foldl_cons, ih]
    by_cases h : t.id = i
    · simp [List.filter_cons, h, add_assoc]
    · have h' : ¬ (i = t.id) := fun hh => h hh.symm
      simp [List.filter_cons, h, h']

/-- With distinct ids, the initial indegree of a member id is the length of
    its dependency list (external dependencies included). -/
theorem buildIndegree_eq_depsLen {tasks : List STask} (hnd : (idsOf tasks).Nodup)
    {t : STask} (ht : t ∈ tasks) :
    buildIndegree tasks t.id = (t.deps.length : Int) := by
  rw [buildIndegree_apply, filter_id_single hnd ht]
  simp

/-- Closed form of the adjacency dict built by the first loop. -/
theorem buildAdj_apply (tasks : List STask) (j : Nat) :
    buildAdj tasks j =
      tasks.flatMap (fun t => (t.deps.filter (fun d => d = j)).map (fun _ => t.id)) := by
  suffices hinner : ∀ (deps : List Nat) (g : Nat → List Nat) (tid : Nat),
      (deps.foldl (fun adj d => fun j' => if j' = d then adj j' ++ [tid] else adj j') g) j =
        g j ++ (deps.filter (fun d => d = j)).map (fun _ => tid) by
    suffices houter : ∀ (ts : List STask) (g : Nat → List Nat),
        (ts.foldl
          (fun adj t =>
            t.deps.foldl (fun adj d => fun j' => if j' = d then adj j' ++ [t.id] else adj j') adj)
          g) j =
          g j ++ ts.flatMap (fun t => (t.deps.filter (fun d => d = j)).map (fun _ => t.id)) by
      simpa [buildAdj] using houter tasks (fun _ => [])
    intro ts
    induction ts with
    | nil => intro g; simp
    | cons t ts ih =>
      intro g
      rw [List.foldl_cons, ih, hinner]
      simp [List.append_assoc]
  intro deps
  induction deps with
  | nil => intro g tid; simp
  | cons d ds ih =>
    intro g tid
    rw [List.foldl_cons, ih]
    by_cases h : j = d
    · subst h
      simp [List.filter_cons]
    · have h' : ¬ (d = j) := fun hh => h hh.symm
      simp [List.filter_cons, h, h']

/-- Under `SchedOK`, each task contributes at most one adjacency entry, so
    the adjacency list of `j` is the id list of the tasks that depend on `j`. -/
theorem buildAdj_eq_filter {tasks : List STask} (S : SchedOK tasks) (j : Nat) :
    buildAdj tasks j = (tasks.filter (fun t => j ∈ t.deps)).map (·.id) := by
  rw [buildAdj_apply]
  induction tasks with
  | nil => simp
  | cons t ts ih =>
    have S' : SchedOK ts :=
      ⟨by
        have := S.idsNodup
        simp only [idsOf, List.map_cons, List.nodup_cons] at this
        exact this.2,
       fun u hu => S.depsNodup u (List.mem_cons_of_mem _ hu)⟩
    have hdn : t.deps.Nodup := S.depsNodup t (List.mem_cons_self _ _)
    have hone : (t.deps.filter (fun d => d = j)).map (fun _ => t.id) =
        if j ∈ t.deps then [t.id] else [] := by
      by_cases hj : j ∈ t.deps
      · rw [filter_eq_single_of_nodup hdn hj]
        simp [hj]
      · rw [filter_eq_nil_of_not_mem hj]
        simp [hj]
    rw [List.flatMap_cons, hone, ih S', List.filter_cons]
    by_cases hj : j ∈ t.deps
    · simp [hj]
    · simp [hj]

/-- Membership in the adjacency list, via `depsOf`. -/
theorem mem_buildAdj {tasks : List STask} (S : SchedOK tasks) {i j : Nat} :
    i ∈ buildAdj tasks j ↔ i ∈ idsOf tasks ∧ j ∈ depsOf tasks i := by
  rw [buildAdj_eq_filter S]
  constructor
  · intro h
    rcases List.mem_map.1 h with ⟨t, ht, rfl⟩
    have htt := List.mem_filter.1 ht
    refine ⟨List.mem_map_of_mem (·.id) htt.1, ?_⟩
    rw [depsOf_mem S.idsNodup htt.1]
    simpa using htt.2
  · rintro ⟨hi, hj⟩
    rcases List.mem_map.1 hi with ⟨t, ht, rfl⟩
    rw [depsOf_mem S.idsNodup ht] at hj
    have hf : t ∈ tasks.filter (fun u => j ∈ u.deps) := by
      rw [List.mem_filter]
      exact ⟨ht, decide_eq_true hj⟩
    exact List.mem_map_of_mem (·.id) hf

/-- The adjacency lists are nodup under `SchedOK`. -/
theorem buildAdj_nodup {tasks : List STask} (S : SchedOK tasks) (j : Nat) :
    (buildAdj tasks j).Nodup := by
  rw [buildAdj_eq_filter S]
  exact List.Nodup.sublist (List.Sublist.map _ (List.filter_sublist tasks)) S.idsNodup

/-- Unfolding equations of `kahnLoop`. -/
theorem kahnLoop_zero (adj : Nat → List Nat) (q : List Nat) (ind : Nat → Int)
    (res : List Nat) : kahnLoop adj 0 q ind res = res := rfl

theorem kahnLoop_nil (adj : Nat → List Nat) (fuel : Nat) (ind : Nat → Int)
    (res : List Nat) : kahnLoop adj (fuel + 1) [] ind res = res := rfl

theorem kahnLoop_cons (adj : Nat → List Nat) (fuel : Nat) (n : Nat)
    (rest : List Nat) (ind : Nat → Int) (res : List Nat) :
    kahnLoop adj (fuel + 1) (n :: rest) ind res =
      kahnLoop adj fuel
        ((adj n).foldl
          (fun (p : (Nat → Int) × List Nat) m =>
            let ind1 : Nat → Int := fun i => if i = m then p.1 i - 1 else p.1 i
            (ind1, if ind1 m = 0 then p.2 ++ [m] else p.2))
          (ind, rest)).2
        ((adj n).foldl
          (fun (p : (Nat → Int) × List Nat) m =>
            let ind1 : Nat → Int := fun i => if i = m then p.1 i - 1 else p.1 i
            (ind1, if ind1 m = 0 then p.2 ++ [m] else p.2))
          (ind, rest)).1
        (res ++ [n]) := rfl

/-- Closed form of the dependent-decrement inner loop (`for m in adj[n]`):
    when the processed adjacency list is nodup, each of its members is
    decremented exactly once, and exactly the members whose indegree was 1
    are appended to the queue, in adjacency order. -/
theorem innerFold_spec (l : List Nat) (hl : l.Nodup) (ind : Nat → Int)
    (q : List Nat) :
    l.foldl
      (fun (p : (Nat → Int) × List Nat) m =>
        let ind1 : Nat → Int := fun i => if i = m then p.1 i - 1 else p.1 i
        (ind1, if ind1 m = 0 then p.2 ++ [m] else p.2))
      (ind, q) =
    (fun i => if i ∈ l then ind i - 1 else ind i,
     q ++ l.filter (fun m => ind m = 1)) := by
  induction l generalizing ind q with
  | nil =>
    simp only [List.foldl_nil, List.filter_nil, List.append_nil]
    rw [Prod.mk.injEq]
    constructor
    · funext i; simp
    · rfl
  | cons m ms ih =>
    simp only [List.nodup_cons] at hl
    rw [List.foldl_cons]
    show List.foldl
        (fun (p : (Nat → Int) × List Nat) m =>
          let ind1 : Nat → Int := fun i => if i = m then p.1 i - 1 else p.1 i
          (ind1, if ind1 m = 0 then p.2 ++ [m] else p.2))
        ((fun i => if i = m then ind i - 1 else ind i),
         if (if m = m then ind m - 1 else ind m) = 0 then q ++ [m] else q) ms =
      (fun i => if i ∈ m :: ms then ind i - 1 else ind i,
       q ++ (m :: ms).filter (fun x => ind x = 1))
    rw [if_pos rfl, ih hl.2, Prod.mk.injEq]
    constructor
    · funext i
      by_cases him : i = m
      · subst him
        simp [hl.1]
      · by_cases hims : i ∈ ms <;> simp [hims, him, List.mem_cons]
    · have hfc : ms.filter (fun x => (if x = m then ind x - 1 else ind x) = 1) =
          ms.filter (fun x => ind x = 1) := by
        apply List.filter_congr
        intro x hx
        have hxm : x ≠ m := fun h => hl.1 (h ▸ hx)
        simp [hxm]
      rw [hfc]
      by_cases hm1 : ind m = 1
      · have h0 : ind m - 1 = 0 := by omega
        rw [if_pos h0, List.filter_cons, if_pos (by simpa using hm1)]
        simp
      · have h0 : ¬ (ind m - 1 = 0) := by omega
        rw [if_neg h0, List.filter_cons, if_neg (by simpa using hm1)]

/-- Complementary filter lengths. -/
theorem length_filter_compl (l : List Nat) (p : Nat → Bool) :
    (l.filter p).length + (l.filter (fun x => ! p x)).length = l.length := by
  induction l with
  | nil => simp
  | cons a l ih =>
    cases hpa : p a <;> simp [List.filter_cons, hpa] <;> omega

/-- A nodup list whose members all equal `n` and which contains `n` is `[n]`. -/
theorem eq_singleton_of_all_eq {l : List Nat} {n : Nat} (hl : l.Nodup)
    (hall : ∀ x ∈ l, x = n) (hn : n ∈ l) : l = [n] := by
  cases l with
  | nil => cases hn
  | cons a l' =>
    have ha : a = n := hall a (List.mem_cons_self _ _)
    subst ha
    cases l' with
    | nil => rfl
    | cons b l'' =>
      have hb : b = a := hall b (List.mem_cons_of_mem _ (List.mem_cons_self _ _))
      simp only [List.nodup_cons] at hl
      exact absurd (hb ▸ List.mem_cons_self b l'') hl.1

/-- Counting the members of a nodup list that lie in `res ++ [n]`, `n ∉ res`. -/
theorem length_filter_append_singleton {l res : List Nat} {n : Nat}
    (hl : l.Nodup) (hn : n ∉ res) :
    (l.filter (fun d => d ∈ res ++ [n])).length =
      (l.filter (fun d => d ∈ res)).length + (if n ∈ l then 1 else 0) := by
  induction l with
  | nil => simp
  | cons a l ih =>
    simp only [List.nodup_cons] at hl
    have ihl := ih hl.2
    rw [List.filter_cons, List.filter_cons]
    by_cases ha : a ∈ res
    · have ha' : a ∈ res ++ [n] := List.mem_append_left _ ha
      have hna : ¬ (n = a) := fun h => hn (h ▸ ha)
      rw [if_pos (decide_eq_true ha'), if_pos (decide_eq_true ha)]
      simp only [List.length_cons, ihl, List.mem_cons]
      have hite : (if n = a ∨ n ∈ l then 1 else 0) = (if n ∈ l then 1 else 0) := by
        simp [hna]
      rw [hite]
      omega
    · by_cases han : a = n
      · have ha' : a ∈ res ++ [n] := by
          rw [han]
          exact List.mem_append_right _ (List.mem_cons_self _ _)
        have hnl : n ∉ l := han ▸ hl.1
        rw [if_pos (decide_eq_true ha'), if_neg (by simpa using ha)]
        simp only [List.length_cons, ihl, List.mem_cons]
        have h1 : (if n = a ∨ n ∈ l then 1 else 0) = 1 := by simp [han.symm]
        have h2 : (if n ∈ l then 1 else 0) = 0 := by simp [hnl]
        rw [h1, h2]
      · have ha' : a ∉ res ++ [n] := by
          intro h
          rcases List.mem_append.1 h with h1 | h1
          · exact ha h1
          · exact han (List.mem_singleton.1 h1)
        have hna : ¬ (n = a) := fun h => han h.symm
        rw [if_neg (by simpa using ha'), if_neg (by simpa using ha), ihl]
        simp only [List.mem_cons]
        have hite : (if n = a ∨ n ∈ l then 1 else 0) = (if n ∈ l then 1 else 0) := by
          simp [hna]
        rw [hite]

/-- A task all of whose dependencies were emitted has indegree 0. -/
theorem ind_zero_of_ready {tasks : List STask} {res : List Nat} {ind : Nat → Int}
    (hspec : ∀ i ∈ idsOf tasks,
      ind i = ((depsOf tasks i).length : Int) -
        (((depsOf tasks i).filter (fun d => d ∈ res)).length : Int))
    {i : Nat} (hi : i ∈ idsOf tasks)
    (hready : ∀ d ∈ depsOf tasks i, d ∈ res) : ind i = 0 := by
  rw [hspec i hi]
  have hfe : (depsOf tasks i).filter (fun d => d ∈ res) = depsOf tasks i :=
    List.filter_eq_self.2 (fun d hd => decide_eq_true (hready d hd))
  rw [hfe]
  omega

/-- A task of indegree 1 with unemitted dependency `n` has no other
    unemitted dependency. -/
theorem missing_dep_unique {tasks : List STask}
    {res : List Nat} {ind : Nat → Int}
    (hspec : ∀ i ∈ idsOf tasks,
      ind i = ((depsOf tasks i).length : Int) -
        (((depsOf tasks i).filter (fun d => d ∈ res)).length : Int))
    {m n : Nat} (hm : m ∈ idsOf tasks) (hnres : n ∉ res)
    (hdep : n ∈ depsOf tasks m) (hind : ind m = 1) :
    ∀ d ∈ depsOf tasks m, d ∉ res → d = n := by
  intro d hd hdres
  have hcompl := length_filter_compl (depsOf tasks m) (fun x => decide (x ∈ res))
  have hspecm := hspec m hm
  rw [hind] at hspecm
  have hone : ((depsOf tasks m).filter (fun x => ! decide (x ∈ res))).length = 1 := by
    omega
  obtain ⟨a, ha⟩ := List.length_eq_one.1 hone
  have hnmem : n ∈ (depsOf tasks m).filter (fun x => ! decide (x ∈ res)) := by
    rw [List.mem_filter]
    exact ⟨hdep, by simp [hnres]⟩
  have hdmem : d ∈ (depsOf tasks m).filter (fun x => ! decide (x ∈ res)) := by
    rw [List.mem_filter]
    exact ⟨hd, by simp [hdres]⟩
  rw [ha] at hnmem hdmem
  rw [List.mem_singleton.1 hdmem, List.mem_singleton.1 hnmem]

/-- A task whose only unemitted dependency is `n` has indegree 1. -/
theorem ind_one_of_missing {tasks : List STask} (S : SchedOK tasks)
    {res : List Nat} {ind : Nat → Int}
    (hspec : ∀ i ∈ idsOf tasks,
      ind i = ((depsOf tasks i).length : Int) -
        (((depsOf tasks i).filter (fun d => d ∈ res)).length : Int))
    {i n : Nat} (hi : i ∈ idsOf tasks) (hnres : n ∉ res)
    (hdep : n ∈ depsOf tasks i)
    (hall : ∀ d ∈ depsOf tasks i, d ∉ res → d = n) :
    ind i = 1 := by
  have hnd : (depsOf tasks i).Nodup := depsOf_nodup S i
  have hfil : (depsOf tasks i).filter (fun x => ! decide (x ∈ res)) = [n] := by
    apply eq_singleton_of_all_eq (hnd.filter _)
    · intro x hx
      have hx' := List.mem_filter.1 hx
      exact hall x hx'.1 (by simpa using hx'.2)
    · rw [List.mem_filter]
      exact ⟨hdep, by simp [hnres]⟩
  have hcompl := length_filter_compl (depsOf tasks i) (fun x => decide (x ∈ res))
  rw [hfil] at hcompl
  simp only [List.length_singleton] at hcompl
  rw [hspec i hi]
  omega

/-- Master lemma: from any state satisfying the invariant, with enough fuel,
    the queue loop emits `res ++ q` first (FIFO) and ends in a state whose
    invariant has an empty frontier. -/
theorem kahnLoop_master {tasks : List STask} (S : SchedOK tasks) :
    ∀ (fuel : Nat) (q : List Nat) (ind : Nat → Int) (res : List Nat),
      LoopInv tasks q res ind →
      (idsOf tasks).length ≤ fuel + res.length →
      ∃ rest indF,
        kahnLoop (buildAdj tasks) fuel q ind res = res ++ q ++ rest ∧
        LoopInv tasks [] (res ++ q ++ rest) indF := by
  intro fuel
  induction fuel with
  | zero =>
    intro q ind res hInv hfuel
    cases q with
    | nil =>
      exact ⟨[], ind, by rw [kahnLoop_zero]; simp, by simpa using hInv⟩
    | cons n rest =>
      exfalso
      have hsub : res ⊆ idsOf tasks := fun a ha => hInv.resIds a ha
      have hsp := List.subperm_of_subset hInv.resNodup hsub
      have hperm := hsp.perm_of_length_le (by simpa using hfuel)
      have hnids : n ∈ idsOf tasks := hInv.qIds n (List.mem_cons_self _ _)
      have hnres : n ∈ res := hperm.mem_iff.2 hnids
      exact hInv.disj n hnres (List.mem_cons_self _ _)
  | succ fuel ih =>
    intro q ind res hInv hfuel
    cases q with
    | nil =>
      exact ⟨[], ind, by rw [kahnLoop_nil]; simp, by simpa using hInv⟩
    | cons n rest =>
      have hAn : (buildAdj tasks n).Nodup := buildAdj_nodup S n
      have hnq : n ∈ n :: rest := List.mem_cons_self _ _
      have hnids : n ∈ idsOf tasks := hInv.qIds n hnq
      have hnres : n ∉ res := fun h => hInv.disj n h hnq
      have hncons := List.nodup_cons.1 hInv.qNodup
      have hnrest : n ∉ rest := hncons.1
      have hrestnd : rest.Nodup := hncons.2
      have hnready : ∀ d ∈ depsOf tasks n, d ∈ res := hInv.qReady n hnq
      have hindn : ind n = 0 := ind_zero_of_ready hInv.indSpec hnids hnready
      have hstep : kahnLoop (buildAdj tasks) (fuel + 1) (n :: rest) ind res =
          kahnLoop (buildAdj tasks) fuel
            (rest ++ (buildAdj tasks n).filter (fun m => ind m = 1))
            (fun i => if i ∈ buildAdj tasks n then ind i - 1 else ind i)
            (res ++ [n]) := by
        rw [kahnLoop_cons, innerFold_spec (buildAdj tasks n) hAn ind rest]
      have hInv' : LoopInv tasks
          (rest ++ (buildAdj tasks n).filter (fun m => ind m = 1))
          (res ++ [n])
          (fun i => if i ∈ buildAdj tasks n then ind i - 1 else ind i) := by
        refine ⟨?_, ?_, ?_, ?_, ?_, ?_, ?_, ?_, ?_, ?_⟩
        · rw [List.nodup_append]
          exact ⟨hInv.resNodup, List.nodup_singleton n,
            fun a ha hb => hnres (List.mem_singleton.1 hb ▸ ha)⟩
        · rw [List.nodup_append]
          refine ⟨hrestnd, hAn.filter _, ?_⟩
          intro m hmrest hmF
          have hm1 : ind m = 1 := of_decide_eq_true (List.mem_filter.1 hmF).2
          have hm0 : ind m = 0 := ind_zero_of_ready hInv.indSpec
            (hInv.qIds m (List.mem_cons_of_mem _ hmrest))
            (hInv.qReady m (List.mem_cons_of_mem _ hmrest))
          omega
        · intro i hi hq'
          rcases List.mem_append.1 hi with hires | hin
          · rcases List.mem_append.1 hq' with h1 | h1
            · exact hInv.disj i hires (List.mem_cons_of_mem _ h1)
            · have hm1 : ind i = 1 := of_decide_eq_true (List.mem_filter.1 h1).2
              have hm0 : ind i = 0 := ind_zero_of_ready hInv.indSpec
                (hInv.resIds i hires) (hInv.resClosed i hires)
              omega
          · have hin' : i = n := List.mem_singleton.1 hin
            subst hin'
            rcases List.mem_append.1 hq' with h1 | h1
            · exact hnrest h1
            · have hm1 : ind i = 1 := of_decide_eq_true (List.mem_filter.1 h1).2
              omega
        · intro i hi
          rcases List.mem_append.1 hi with h1 | h1
          · exact hInv.resIds i h1
          · exact List.mem_singleton.1 h1 ▸ hnids
        · intro i hi
          rcases List.mem_append.1 hi with h1 | h1
          · exact hInv.qIds i (List.mem_cons_of_mem _ h1)
          · exact ((mem_buildAdj S).1 (List.mem_filter.1 h1).1).1
        · intro i hi
          have hcnt := length_filter_append_singleton (depsOf_nodup S i) hnres
          by_cases hiA : i ∈ buildAdj tasks n
          · have hnD : n ∈ depsOf tasks i := ((mem_buildAdj S).1 hiA).2
            rw [if_pos hnD] at hcnt
            simp only [if_pos hiA]
            rw [hInv.indSpec i hi, hcnt]
            push_cast
            ring
          · have hnD : n ∉ depsOf tasks i := fun h => hiA ((mem_buildAdj S).2 ⟨hi, h⟩)
            rw [if_neg hnD] at hcnt
            simp only [if_neg hiA]
            rw [hInv.indSpec i hi, hcnt]
            omega
        · intro i hi d hd
          rcases List.mem_append.1 hi with h1 | h1
          · exact List.mem_append_left _
              (hInv.qReady i (List.mem_cons_of_mem _ h1) d hd)
          · have hiA := (List.mem_filter.1 h1).1
            have h1ind : ind i = 1 := of_decide_eq_true (List.mem_filter.1 h1).2
            have hiid : i ∈ idsOf tasks := ((mem_buildAdj S).1 hiA).1
            have hnD : n ∈ depsOf tasks i := ((mem_buildAdj S).1 hiA).2
            by_cases hdres : d ∈ res
            · exact List.mem_append_left _ hdres
            · have hdn : d = n :=
                missing_dep_unique hInv.indSpec hiid hnres hnD h1ind d hd hdres
              rw [hdn]
              exact List.mem_append_right _ (List.mem_cons_self _ _)
        · intro i hi d hd
          rcases List.mem_append.1 hi with h1 | h1
          · exact List.mem_append_left _ (hInv.resClosed i h1 d hd)
          · have hin' : i = n := List.mem_singleton.1 h1
            subst hin'
            exact List.mem_append_left _ (hnready d hd)
        · intro i hi hready'
          by_cases hall : ∀ d ∈ depsOf tasks i, d ∈ res
          · rcases hInv.complete i hi hall with h1 | h1
            · exact Or.inl (List.mem_append_left _ h1)
            · rcases List.mem_cons.1 h1 with rfl | h2
              · exact Or.inl (List.mem_append_right _ (List.mem_cons_self _ _))
              · exact Or.inr (List.mem_append_left _ h2)
          · push_neg at hall
            obtain ⟨d0, hd0D, hd0res⟩ := hall
            have hd0n : d0 = n := by
              rcases List.mem_append.1 (hready' d0 hd0D) with h1 | h1
              · exact absurd h1 hd0res
              · exact List.mem_singleton.1 h1
            subst hd0n
            by_cases hires : i ∈ res
            · exact Or.inl (List.mem_append_left _ hires)
            · refine Or.inr (List.mem_append_right _ ?_)
              rw [List.mem_filter]
              refine ⟨(mem_buildAdj S).2 ⟨hi, hd0D⟩, decide_eq_true ?_⟩
              apply ind_one_of_missing S hInv.indSpec hi hd0res hd0D
              intro d hd hdres
              rcases List.mem_append.1 (hready' d hd) with h1 | h1
              · exact absurd h1 hdres
              · exact List.mem_singleton.1 h1
        · intro k h d hd
          by_cases hk : k < res.length
          · have hget : (res ++ [n])[k] = res[k] := List.getElem_append_left hk
            rw [hget] at hd
            have htk : (res ++ [n]).take k = res.take k := by
              rw [List.take_append_eq_append_take]
              have hz : k - res.length = 0 := by omega
              rw [hz]
              simp
            rw [htk]
            exact hInv.ordered k hk d hd
          · have hke : k = res.length := by
              have := h
              simp only [List.length_append, List.length_singleton] at this
              omega
            subst hke
            have hget : (res ++ [n])[res.length] = n := by
              rw [List.getElem_append_right (le_refl _)]
              simp
            rw [hget] at hd
            rw [List.take_left]
            exact hnready d hd
      have hfuel' : (idsOf tasks).length ≤ fuel + (res ++ [n]).length := by
        simp only [List.length_append, List.length_singleton]
        omega
      obtain ⟨rest2, indF, heq, hfin⟩ := ih _ _ _ hInv' hfuel'
      refine ⟨(buildAdj tasks n).filter (fun m => ind m = 1) ++ rest2, indF, ?_, ?_⟩
      · rw [hstep, heq]
        simp [List.append_assoc]
      · have hll : (res ++ [n]) ++ (rest ++ (buildAdj tasks n).filter (fun m => ind m = 1)) ++ rest2 =
            res ++ (n :: rest) ++ ((buildAdj tasks n).filter (fun m => ind m = 1) ++ rest2) := by
          simp [List.append_assoc]
        rwa [hll] at hfin

/-- Zeta-reduced form of `topological_sort`. -/
theorem topological_sort_def (tasks : List STask) :
    topological_sort tasks =
      (if (kahnLoop (buildAdj tasks) (tasks.length + 1) (initialFrontier tasks)
            (buildIndegree tasks) []).length = (nodesOf tasks).length then
        .ok ((kahnLoop (buildAdj tasks) (tasks.length + 1) (initialFrontier tasks)
            (buildIndegree tasks) []).filterMap
          (fun i => (nodesOf tasks).find? (fun t => t.id = i)))
      else .error "Cycle detected in task dependencies") := rfl

/-- The invariant holds at loop entry. -/
theorem initLoopInv {tasks : List STask} (S : SchedOK tasks) :
    LoopInv tasks (initialFrontier tasks) [] (buildIndegree tasks) := by
  have hnodes : nodesOf tasks = tasks := nodesOf_eq_self S.idsNodup
  have hmem_front : ∀ i, i ∈ initialFrontier tasks ↔
      (i ∈ idsOf tasks ∧ buildIndegree tasks i = 0) := by
    intro i
    unfold initialFrontier
    rw [hnodes, List.mem_filter]
    constructor
    · intro h
      exact ⟨by simpa [idsOf] using h.1, of_decide_eq_true h.2⟩
    · intro h
      exact ⟨by simpa [idsOf] using h.1, decide_eq_true h.2⟩
  refine ⟨List.nodup_nil, ?_, ?_, ?_, ?_, ?_, ?_, ?_, ?_, ?_⟩
  · unfold initialFrontier
    rw [hnodes]
    exact List.Nodup.filter _ S.idsNodup
  · intro i hi
    exact absurd hi (List.not_mem_nil i)
  · intro i hi
    exact absurd hi (List.not_mem_nil i)
  · intro i hi
    exact ((hmem_front i).1 hi).1
  · intro i hi
    rcases List.mem_map.1 (show i ∈ tasks.map (·.id) by simpa [idsOf] using hi)
      with ⟨t, ht, rfl⟩
    rw [buildIndegree_eq_depsLen S.idsNodup ht, depsOf_mem S.idsNodup ht]
    simp
  · intro i hi d hd
    exfalso
    obtain ⟨hiids, hz⟩ := (hmem_front i).1 hi
    rcases List.mem_map.1 (show i ∈ tasks.map (·.id) by simpa [idsOf] using hiids)
      with ⟨t, ht, rfl⟩
    rw [buildIndegree_eq_depsLen S.idsNodup ht] at hz
    have hlen : t.deps.length = 0 := by exact_mod_cast hz
    rw [depsOf_mem S.idsNodup ht, List.length_eq_zero.1 hlen] at hd
    exact List.not_mem_nil d hd
  · intro i hi
    exact absurd hi (List.not_mem_nil i)
  · intro i hi hready
    right
    rw [hmem_front i]
    refine ⟨hi, ?_⟩
    rcases List.mem_map.1 (show i ∈ tasks.map (·.id) by simpa [idsOf] using hi)
      with ⟨t, ht, rfl⟩
    rw [buildIndegree_eq_depsLen S.idsNodup ht]
    have hdeps : t.deps = [] := by
      rw [← depsOf_mem S.idsNodup ht]
      exact List.eq_nil_iff_forall_not_mem.2
        (fun a ha => absurd (hready a ha) (List.not_mem_nil a))
    rw [hdeps]
    simp
  · intro k h d hd
    exact absurd h (by simp)

/-- Running the loop from the initial state: the output starts with the seed
    frontier and satisfies the final invariant. -/
theorem topo_run {tasks : List STask} (S : SchedOK tasks) :
    ∃ r indF,
      kahnLoop (buildAdj tasks) (tasks.length + 1) (initialFrontier tasks)
        (buildIndegree tasks) [] = r ∧
      (∃ rest, r = initialFrontier tasks ++ rest) ∧
      LoopInv tasks [] r indF := by
  obtain ⟨rest, indF, heq, hfin⟩ := kahnLoop_master S (tasks.length + 1)
    (initialFrontier tasks) (buildIndegree tasks) [] (initLoopInv S)
    (by simp only [idsOf, List.length_map, List.length_nil]; omega)
  refine ⟨initialFrontier tasks ++ rest, indF, by simpa using heq, ⟨rest, rfl⟩, ?_⟩
  simpa using hfin

/-- Rebuilding tasks from emitted ids: mapping `id` over the lookup results
    recovers the id list. -/
theorem filterMap_find_map_id {tasks : List STask} (S : SchedOK tasks) :
    ∀ (l : List Nat), (∀ i ∈ l, i ∈ idsOf tasks) →
      (l.filterMap (fun i => tasks.find? (fun t => t.id = i))).map (·.id) = l := by
  intro l
  induction l with
  | nil => simp
  | cons i l ih =>
    intro hsub
    have hi : i ∈ idsOf tasks := hsub i (List.mem_cons_self _ _)
    rcases List.mem_map.1 (show i ∈ tasks.map (·.id) by simpa [idsOf] using hi)
      with ⟨t, ht, rfl⟩
    rw [List.filterMap_cons, find?_id_self S.idsNodup ht]
    simp only [List.map_cons]
    rw [ih (fun j hj => hsub j (List.mem_cons_of_mem _ hj))]

/-- Rebuilding a sublist of tasks from its own ids gives it back. -/
theorem filterMap_find_self {tasks : List STask} (S : SchedOK tasks) :
    ∀ (ts : List STask), (∀ t ∈ ts, t ∈ tasks) →
      (ts.map (·.id)).filterMap (fun i => tasks.find? (fun t => t.id = i)) = ts := by
  intro ts
  induction ts with
  | nil => simp
  | cons t ts ih =>
    intro hsub
    rw [List.map_cons, List.filterMap_cons,
      find?_id_self S.idsNodup (hsub t (List.mem_cons_self _ _))]
    simp only []
    rw [ih (fun u hu => hsub u (List.mem_cons_of_mem _ hu))]

/-- Members of the rebuilt list are input tasks. -/
theorem mem_of_mem_filterMap_find {tasks : List STask} {l : List Nat} {u : STask}
    (h : u ∈ l.filterMap (fun i => tasks.find? (fun t => t.id = i))) : u ∈ tasks := by
  rcases List.mem_filterMap.1 h with ⟨i, _, hf⟩
  exact List.mem_of_find?_eq_some hf

/-- An input task whose id was emitted appears in the rebuilt list. -/
theorem mem_filterMap_find_of_mem {tasks : List STask} (S : SchedOK tasks)
    {l : List Nat} {u : STask} (hu : u ∈ tasks) (hl : u.id ∈ l) :
    u ∈ l.filterMap (fun i => tasks.find? (fun t => t.id = i)) :=
  List.mem_filterMap.2 ⟨u.id, hl, find?_id_self S.idsNodup hu⟩

/-- The rebuilt list is nodup when the id list is. -/
theorem filterMap_find_nodup {tasks : List STask} {l : List Nat}
    (hl : l.Nodup) :
    (l.filterMap (fun i => tasks.find? (fun t => t.id = i))).Nodup := by
  apply List.Nodup.filterMap _ hl
  intro a a' b hba hba'
  have h1 := List.find?_some (Option.mem_def.1 hba)
  have h2 := List.find?_some (Option.mem_def.1 hba')
  simp only [decide_eq_true_eq] at h1 h2
  rw [← h1, ← h2]

/-- First occurrence inside a prefix bounds the index. -/
theorem indexOf_lt_of_mem_take :
    ∀ {l : List Nat} {k x : Nat}, x ∈ l.take k → List.indexOf x l < k := by
  intro l
  induction l with
  | nil => intro k x h; simp at h
  | cons a l ih =>
    intro k x h
    cases k with
    | zero => simp at h
    | succ k =>
      rw [List.take_succ_cons] at h
      by_cases hxa : x = a
      · subst hxa
        rw [List.indexOf_cons_self]
        omega
      · rcases List.mem_cons.1 h with h1 | h2
        · exact absurd h1 hxa
        · rw [List.indexOf_cons_ne _ (fun hh => hxa hh.symm)]
          have := ih h2
          omega

/-- Acyclicity (rank witness) forces the loop to emit every input id. -/
theorem ids_subset_result {tasks : List STask} (S : SchedOK tasks)
    (hcl : DepsClosed tasks) {r : List Nat} {indF : Nat → Int}
    (hfin : LoopInv tasks [] r indF) (rank : Nat → Nat)
    (hrank : ∀ t ∈ tasks, ∀ d ∈ t.deps, rank d < rank t.id) :
    ∀ i ∈ idsOf tasks, i ∈ r := by
  have H : ∀ v i, i ∈ idsOf tasks → rank i < v → i ∈ r := by
    intro v
    induction v with
    | zero => intro i _ hlt; omega
    | succ v ihv =>
      intro i hi hlt
      rcases List.mem_map.1 (show i ∈ tasks.map (·.id) by simpa [idsOf] using hi)
        with ⟨t, ht, rfl⟩
      have hready : ∀ d ∈ depsOf tasks t.id, d ∈ r := by
        rw [depsOf_mem S.idsNodup ht]
        intro d hd
        exact ihv d (hcl t ht d hd) (by have := hrank t ht d hd; omega)
      rcases hfin.complete t.id hi hready with h | h
      · exact h
      · exact absurd h (List.not_mem_nil _)
  exact fun i hi => H (rank i + 1) i hi (Nat.lt_succ_self _)

/-- A successful sort certifies acyclicity: the emission index is a rank
    function, so no dependency cycle can exist in the input. -/
theorem no_cycle_of_ok {tasks : List STask} (S : SchedOK tasks) {out : List STask}
    (h : topological_sort tasks = .ok out) : ¬ HasCycle tasks := by
  obtain ⟨r, indF, hrun, _, hfin⟩ := topo_run S
  rw [topological_sort_def, hrun, nodesOf_eq_self S.idsNodup] at h
  by_cases hc : r.length = tasks.length
  · rw [if_pos hc] at h
    have hsp := List.subperm_of_subset hfin.resNodup (fun a ha => hfin.resIds a ha)
    have hperm : r.Perm (idsOf tasks) := hsp.perm_of_length_le
      (by simp only [idsOf, List.length_map]; omega)
    rintro ⟨a, c, hchain⟩
    have hrankstep : ∀ x y, x ∈ depsOf tasks y →
        List.indexOf x r < List.indexOf y r := by
      intro x y hxy
      have hyids : y ∈ idsOf tasks := mem_ids_of_depsOf_ne_nil (List.ne_nil_of_mem hxy)
      have hyr : y ∈ r := hperm.mem_iff.2 hyids
      have hky : List.indexOf y r < r.length := List.indexOf_lt_length.2 hyr
      have hgety : r[List.indexOf y r] = y := by
        have hg := List.indexOf_get hky
        rwa [List.get_eq_getElem] at hg
      have hord := hfin.ordered (List.indexOf y r) hky
      rw [hgety] at hord
      exact indexOf_lt_of_mem_take (hord x hxy)
    haveI : IsTrans Nat (fun x y => List.indexOf x r < List.indexOf y r) :=
      ⟨fun _ _ _ h1 h2 => lt_trans h1 h2⟩
    have hchain2 : List.Chain (fun x y => List.indexOf x r < List.indexOf y r)
        a (c ++ [a]) := List.Chain.imp (fun x y hh => hrankstep x y hh) hchain
    have hpw := List.chain_iff_pairwise.1 hchain2
    have hself := (List.pairwise_cons.1 hpw).1 a
      (List.mem_append_right _ (List.mem_cons_self _ _))
    exact lt_irrefl _ hself
  · rw [if_neg hc] at h
    exact absurd h (by simp)

/-- The only error the sort raises carries the cycle message. -/
theorem topological_sort_error_msg {tasks : List STask} {e : String}
    (h : topological_sort tasks = .error e) :
    e = "Cycle detected in task dependencies" := by
  rw [topological_sort_def] at h
  by_cases hc : (kahnLoop (buildAdj tasks) (tasks.length + 1) (initialFrontier tasks)
      (buildIndegree tasks) []).length = (nodesOf tasks).length
  · rw [if_pos hc] at h
    exact absurd h (by simp)
  · rw [if_neg hc] at h
    have h' := h
    simp only [Except.error.injEq] at h'
    exact h'.symm

/-- Transfers the id-level ordering invariant to the rebuilt task list. -/
theorem ordered_transfer {tasks : List STask} (hnd : (idsOf tasks).Nodup)
    {out : List STask} {r : List Nat}
    (hmap : out.map (·.id) = r) (hmem : ∀ u ∈ out, u ∈ tasks)
    (hord : ∀ (k : Nat) (h : k < r.length),
      ∀ d ∈ depsOf tasks (r[k]), d ∈ r.take k) :
    ∀ (k : Nat) (hk : k < out.length), ∀ d ∈ out[k].deps,
      d ∈ (out.take k).map (·.id) := by
  subst hmap
  intro k hk d hd
  have hkr : k < (out.map (·.id)).length := by simpa using hk
  have h1 := hord k hkr
  rw [List.getElem_map] at h1
  have hdeps : depsOf tasks (out[k].id) = out[k].deps :=
    depsOf_mem hnd (hmem _ (List.getElem_mem _))
  rw [hdeps] at h1
  have h2 := h1 d hd
  rwa [← List.map_take] at h2

/-- Core correctness of `topological_sort` on well-formed acyclic input:
    success, permutation, and dependencies-before-dependents. -/
theorem topological_sort_correct {tasks : List STask} (S : SchedOK tasks)
    (hcl : DepsClosed tasks) (rank : Nat → Nat)
    (hrank : ∀ t ∈ tasks, ∀ d ∈ t.deps, rank d < rank t.id) :
    ∃ out, topological_sort tasks = .ok out ∧ out.Perm tasks ∧
      ∀ (k : Nat) (hk : k < out.length), ∀ d ∈ out[k].deps,
        d ∈ (out.take k).map (·.id) := by
  obtain ⟨r, indF, hrun, _, hfin⟩ := topo_run S
  have hsub : ∀ i ∈ idsOf tasks, i ∈ r := ids_subset_result S hcl hfin rank hrank
  have hperm_ids : r.Perm (idsOf tasks) :=
    (List.perm_ext_iff_of_nodup hfin.resNodup S.idsNodup).2
      (fun a => ⟨fun h => hfin.resIds a h, fun h => hsub a h⟩)
  have hlen : r.length = tasks.length := by
    rw [hperm_ids.length_eq]
    simp [idsOf]
  have hok : topological_sort tasks =
      .ok (r.filterMap (fun i => tasks.find? (fun t => t.id = i))) := by
    rw [topological_sort_def, hrun, nodesOf_eq_self S.idsNodup, if_pos (by rw [hlen])]
  have hmapid : (r.filterMap (fun i => tasks.find? (fun t => t.id = i))).map (·.id) = r :=
    filterMap_find_map_id S r (fun i hi => hfin.resIds i hi)
  refine ⟨r.filterMap (fun i => tasks.find? (fun t => t.id = i)), hok, ?_, ?_⟩
  · have houtnd : (r.filterMap (fun i => tasks.find? (fun t => t.id = i))).Nodup :=
      filterMap_find_nodup hfin.resNodup
    have htnd : tasks.Nodup := List.Nodup.of_map _ S.idsNodup
    apply (List.perm_ext_iff_of_nodup houtnd htnd).2
    intro u
    constructor
    · exact mem_of_mem_filterMap_find
    · intro hu
      exact mem_filterMap_find_of_mem S hu
        (hsub u.id (by simpa [idsOf] using List.mem_map_of_mem (·.id) hu))
  · exact ordered_transfer S.idsNodup hmapid
      (fun u hu => mem_of_mem_filterMap_find hu) hfin.ordered

end SchedLemmas

section ExecLemmas

/-- A row with both timestamps in order satisfies the invariant. -/
theorem taskInv_of_fields {t : MTask} {s c : Nat}
    (hs : t.started_at = some s) (hc : t.completed_at = some c) (h : s ≤ c) :
    TaskInv t := fun _ => ⟨s, c, hs, hc, h⟩

/-- A running row satisfies the invariant vacuously. -/
theorem taskInv_running {t : MTask} (h : t.status = .running) : TaskInv t := by
  intro hdf
  rcases hdf with h1 | h1 <;> rw [h] at h1 <;> cases h1

/-- Every row saved by the `except` branch satisfies the invariant, given
    that the current row's `started_at` was set at an earlier clock tick. -/
theorem exceptBranch_saves_inv {cur : MTask} {resultsAcc : List MResult}
    {savesAcc : List MTask} {pubsAcc : List String} {errMsg : String}
    {retries : Nat} {pff : Bool} {clk : Nat → Nat} {k : Nat} (k0 : Nat)
    (hmono : Monotone clk) (hk0 : k0 ≤ k) (hcs : cur.started_at = some (clk k0))
    (hacc : ∀ s ∈ savesAcc, TaskInv s) :
    ∀ s ∈ (exceptBranch cur resultsAcc savesAcc pubsAcc errMsg retries pff
      clk k).saves, TaskInv s := by
  intro s hs
  simp only [exceptBranch] at hs
  split at hs
  · exact hacc s hs
  · split at hs <;>
    · dsimp only at hs
      rcases List.mem_append.1 hs with h | h
      · exact hacc s h
      · rw [List.mem_singleton.1 h]
        exact taskInv_of_fields (by simpa using hcs) rfl (hmono hk0)

/-- Every row saved by one invocation satisfies the invariant. -/
theorem execute_task_inv_saves (task : MTask) (retries : Nat)
    (wf prf pdf pff : Bool) (clk : Nat → Nat) (hmono : Monotone clk) (k : Nat) :
    ∀ s ∈ (execute_task_inv task retries wf prf pdf pff clk k).saves,
      TaskInv s := by
  intro s hs
  simp only [execute_task_inv] at hs
  split at hs
  · dsimp only at hs
    rw [List.mem_singleton.1 hs]
    exact taskInv_running rfl
  · split at hs
    · refine exceptBranch_saves_inv k hmono (by omega) rfl ?_ s hs
      intro u hu
      rw [List.mem_singleton.1 hu]
      exact taskInv_running rfl
    · split at hs
      · refine exceptBranch_saves_inv k hmono (by omega) rfl ?_ s hs
        intro u hu
        rcases List.mem_cons.1 hu with rfl | hu2
        · exact taskInv_running rfl
        · rw [List.mem_singleton.1 hu2]
          exact taskInv_of_fields rfl rfl (hmono (by omega))
      · dsimp only at hs
        rcases List.mem_cons.1 hs with rfl | hs2
        · exact taskInv_running rfl
        · rw [List.mem_singleton.1 hs2]
          exact taskInv_of_fields rfl rfl (hmono (by omega))

/-- Every row saved during a full Celery run satisfies the invariant. -/
theorem runFrom_saves_inv (wf : Nat → Bool) (clk : Nat → Nat)
    (hmono : Monotone clk) :
    ∀ (fuel retries k : Nat) (task : MTask) (results : List MResult),
      ∀ s ∈ (runFrom wf clk fuel retries k task results).saves, TaskInv s := by
  intro fuel
  induction fuel with
  | zero =>
    intro retries k task results s hs
    simp [runFrom] at hs
  | succ fuel ih =>
    intro retries k task results s hs
    simp only [runFrom] at hs
    split at hs
    · dsimp only at hs
      rcases List.mem_append.1 hs with h | h
      · exact execute_task_inv_saves task retries _ _ _ _ clk hmono k s h
      · exact ih (retries + 1) (k + 5) _ _ s h
    · exact execute_task_inv_saves task retries _ _ _ _ clk hmono k s hs

end ExecLemmas

-- sanity examples (linear chain and diamond from src/tasks/tests.py)
example :
    topological_sort [⟨1, []⟩, ⟨2, [1]⟩, ⟨3, [2]⟩] =
      .ok [⟨1, []⟩, ⟨2, [1]⟩, ⟨3, [2]⟩] := by rfl

example :
    (topological_sort [⟨4, [2, 3]⟩, ⟨2, [1]⟩, ⟨3, [1]⟩, ⟨1, []⟩]).map
        (fun l => l.map (·.id)) = .ok [1, 2, 3, 4] := by rfl

example :
    topological_sort [⟨1, [2]⟩, ⟨2, [1]⟩] =
      .error "Cycle detected in task dependencies" := by rfl

-- a task whose dependency is outside the input set
example :
    topological_sort [⟨1, [2]⟩] =
      .error "Cycle detected in task dependencies" := by rfl

-- sanity examples for the execution model
example :
    (runTask (fun _ => true) (fun n => n) ⟨1, .pending, none, none⟩).attempts =
      [0, 1, 2, 3] := by rfl

example :
    (runTask (fun _ => true) (fun n => n) ⟨1, .pending, none, none⟩).task.status =
      .failed := by rfl

example :
    (runTask (fun i => decide (i < 2)) (fun n => n) ⟨1, .pending, none, none⟩).results.map
      (fun r => (r.status, r.retry_count)) = [(.success, 2)] := by rfl

example :
    (execute_task_inv ⟨1, .pending, none, none⟩ 0 false false true false
      (fun n => n) 0).fin = .retryRaised 1 := by rfl


/-! ## Claim theorems -/

/-- C1: contrary to the spec, a dependency edge pointing outside the input
    set is NOT treated as satisfied: `topological_sort` counts it in the
    in-degree, the external node never enters the queue, and the run is
    aborted with the spurious cycle error.  Failing input: the set holding
    only task 1, which depends on task 2 outside the set. -/
theorem external_dep_blocks_run :
    topological_sort [⟨1, [2]⟩] = .error "Cycle detected in task dependencies" ∧
    execute_dag [⟨1, [2]⟩] =
      (.badRequest "Cycle detected in task dependencies", []) :=
  ⟨rfl, rfl⟩

/-- C2: contrary to the spec, the engine has no dependency gate: every
    invocation of `execute_task` immediately saves the task as `running`
    (first saved row), for every task, attempt index, work outcome and
    transport state — the function never reads dependency state.  Moreover
    `execute_dag` enqueues all tasks of the DAG at once (here task 2,
    depending on the still-pending task 1, is enqueued immediately). -/
theorem no_dependency_gating :
    (∀ (task : MTask) (retries : Nat) (wf prf pdf pff : Bool)
      (clk : Nat → Nat) (k : Nat),
      (execute_task_inv task retries wf prf pdf pff clk k).saves.head? =
        some { task with status := .running, started_at := some (clk k) }) ∧
    execute_dag [⟨1, []⟩, ⟨2, [1]⟩] = (.enqueued [1, 2], [1, 2]) := by
  constructor
  · intro task retries wf prf pdf pff clk k
    by_cases hr : shouldRetry retries = true <;>
      cases prf <;> cases wf <;> cases pdf <;> cases pff <;>
        simp [execute_task_inv, exceptBranch, hr]
  · rfl

/-- C3: on a well-formed acyclic input whose edges stay inside the set,
    `topological_sort` succeeds, the output is a permutation of the input,
    and every dependency of the k-th output task already occurs among the
    first k output tasks. -/
theorem order_topological_valid {tasks : List STask} (S : SchedOK tasks)
    (hcl : DepsClosed tasks)
    (hacyc : ∃ rank : Nat → Nat, ∀ t ∈ tasks, ∀ d ∈ t.deps, rank d < rank t.id) :
    ∃ out, topological_sort tasks = .ok out ∧ out.Perm tasks ∧
      ∀ (k : Nat) (hk : k < out.length), ∀ d ∈ out[k].deps,
        d ∈ (out.take k).map (·.id) := by
  obtain ⟨rank, hrank⟩ := hacyc
  exact topological_sort_correct S hcl rank hrank

theorem order_topological_valid_witness :
    ∃ out, topological_sort [⟨1, []⟩, ⟨2, [1]⟩, ⟨3, [1]⟩, ⟨4, [2, 3]⟩] = .ok out ∧
      out.Perm [⟨1, []⟩, ⟨2, [1]⟩, ⟨3, [1]⟩, ⟨4, [2, 3]⟩] ∧
      ∀ (k : Nat) (hk : k < out.length), ∀ d ∈ out[k].deps,
        d ∈ (out.take k).map (·.id) :=
  order_topological_valid ⟨by decide, by decide⟩
    (by unfold DepsClosed; decide) ⟨fun i => i, by decide⟩

/-- C4: a dependency cycle inside the input set makes `topological_sort`
    fail with the cycle `ValueError` (never a partial or full order), and
    the `execute_dag` run trigger aborts with a 400 response, enqueueing
    nothing. -/
theorem order_cycle_error {tasks : List STask} (S : SchedOK tasks)
    (hcyc : HasCycle tasks) :
    topological_sort tasks = .error "Cycle detected in task dependencies" ∧
    execute_dag tasks = (.badRequest "Cycle detected in task dependencies", []) := by
  have hsort : topological_sort tasks =
      .error "Cycle detected in task dependencies" := by
    cases hs : topological_sort tasks with
    | ok out => exact absurd hcyc (no_cycle_of_ok S hs)
    | error e =>
      rw [topological_sort_error_msg hs]
  refine ⟨hsort, ?_⟩
  obtain ⟨a, c, hchain⟩ := hcyc
  have hne : tasks ≠ [] := by
    cases hcc : c ++ [a] with
    | nil => exact absurd hcc (by simp)
    | cons y ys =>
      rw [hcc] at hchain
      cases hchain with
      | cons hstep htail =>
        have hy : y ∈ idsOf tasks :=
          mem_ids_of_depsOf_ne_nil (List.ne_nil_of_mem hstep)
        intro hnil
        rw [hnil] at hy
        simp [idsOf] at hy
  have hemp : ¬ (tasks.isEmpty = true) := by
    simpa [List.isEmpty_iff] using hne
  unfold execute_dag
  rw [if_neg hemp, hsort]

theorem order_cycle_error_witness :
    topological_sort [⟨1, [2]⟩, ⟨2, [1]⟩] =
      .error "Cycle detected in task dependencies" ∧
    execute_dag [⟨1, [2]⟩, ⟨2, [1]⟩] =
      (.badRequest "Cycle detected in task dependencies", []) :=
  order_cycle_error ⟨by decide, by decide⟩
    ⟨1, [2], List.Chain.cons (by decide) (List.Chain.cons (by decide)
      List.Chain.nil)⟩

/-- C5: with `maxRetries = 3`, an always-failing executor produces exactly
    the four attempts 0–3 and ends `failed` with a single failure result
    carrying `retry_count = 3`; an executor failing on attempts 0–1 and
    succeeding on attempt 2 ends `done` with a single success result
    carrying `retry_count = 2`. -/
theorem retry_exhaustion_scenarios (task : MTask) (clk : Nat → Nat) :
    ((runTask (fun _ => true) clk task).attempts = [0, 1, 2, 3] ∧
     (runTask (fun _ => true) clk task).task.status = .failed ∧
     (runTask (fun _ => true) clk task).results.map
       (fun r => (r.status, r.retry_count)) = [(.failure, 3)]) ∧
    ((runTask (fun i => decide (i < 2)) clk task).attempts = [0, 1, 2] ∧
     (runTask (fun i => decide (i < 2)) clk task).task.status = .done ∧
     (runTask (fun i => decide (i < 2)) clk task).results.map
       (fun r => (r.status, r.retry_count)) = [(.success, 2)]) :=
  ⟨⟨rfl, rfl, rfl⟩, ⟨rfl, rfl, rfl⟩⟩

/-- C6: the retry decision and the backoff are pure functions of the
    attempt index: a retry is raised iff `retries < maxRetries = 3`, with
    countdown `1 * 2 ^ retries`, for every task row, clock, and transport
    state — none of which enter the decision. -/
theorem retry_policy_pure :
    maxRetries = 3 ∧
    (∀ i : Nat, shouldRetry i = true ↔ i < maxRetries) ∧
    (∀ i : Nat, backoffCountdown i = 1 * 2 ^ i) ∧
    (∀ (task : MTask) (retries : Nat) (pdf pff : Bool)
      (clk : Nat → Nat) (k : Nat),
      ((execute_task_inv task retries true false pdf pff clk k).fin =
        .retryRaised (backoffCountdown retries)) ↔ retries < maxRetries) := by
  refine ⟨rfl, ?_, ?_, ?_⟩
  · intro i
    simp [shouldRetry]
  · intro i
    simp [backoffCountdown]
  · intro task retries pdf pff clk k
    by_cases h : retries < maxRetries
    · have hsr : shouldRetry retries = true := by simp [shouldRetry, h]
      constructor
      · intro _
        exact h
      · intro _
        simp [execute_task_inv, exceptBranch, hsr]
    · have hsr : shouldRetry retries = false := by simp [shouldRetry, h]
      constructor
      · intro hfin
        exfalso
        cases pff <;> simp [execute_task_inv, exceptBranch, hsr] at hfin
      · intro hlt
        exact absurd hlt h

/-- C7: every task row the executor saves satisfies the timestamp
    invariant — a `done` or `failed` row always carries
    `started_at ≤ completed_at` — both per invocation (under any transport
    behaviour) and over a whole retried run, for any monotone clock. -/
theorem state_timestamp_invariant :
    (∀ (task : MTask) (retries : Nat) (wf prf pdf pff : Bool)
      (clk : Nat → Nat) (k : Nat), Monotone clk →
      ∀ s ∈ (execute_task_inv task retries wf prf pdf pff clk k).saves,
        TaskInv s) ∧
    (∀ (wf : Nat → Bool) (clk : Nat → Nat), Monotone clk →
      ∀ (task : MTask), ∀ s ∈ (runTask wf clk task).saves, TaskInv s) := by
  constructor
  · intro task retries wf prf pdf pff clk k hmono
    exact execute_task_inv_saves task retries wf prf pdf pff clk hmono k
  · intro wf clk hmono task
    exact runFrom_saves_inv wf clk hmono (maxRetries + 1) 0 0 task []

theorem state_timestamp_invariant_witness :
    TaskInv ⟨1, .failed, some 15, some 16⟩ :=
  state_timestamp_invariant.2 (fun _ => true) (fun n => n)
    (fun _ _ h => h) ⟨1, .pending, none, none⟩
    ⟨1, .failed, some 15, some 16⟩ (by decide)

/-- C8: contrary to the spec, a notification-transport failure is not
    contained: the `running` publish escapes to the Celery worker, and the
    `done` publish sits inside the `try`, so its failure triggers the retry
    path although the work succeeded — and at exhausted retries it even
    flips an already-`done` task to `failed`. -/
theorem notification_failure_changes_outcome :
    (execute_task_inv ⟨1, .pending, none, none⟩ 0 false false true false
        (fun n => n) 0).fin = .retryRaised 1 ∧
    (execute_task_inv ⟨1, .pending, none, none⟩ 0 false false false false
        (fun n => n) 0).fin = .returned true ∧
    (execute_task_inv ⟨1, .pending, none, none⟩ 0 false true false false
        (fun n => n) 0).fin = .escaped "TransportUnavailable" ∧
    (execute_task_inv ⟨1, .pending, none, none⟩ 3 false false true false
        (fun n => n) 0).task.status = .failed :=
  ⟨rfl, rfl, rfl, rfl⟩

/-- C9: `order()` is a pure function (identical inputs give identical
    outputs), and ties are broken first-seen-first-out: the tasks seeded
    with zero in-degree open the output in frontier insertion order. -/
theorem order_deterministic_fifo :
    (∀ (ts1 ts2 : List STask), ts1 = ts2 →
      topological_sort ts1 = topological_sort ts2) ∧
    (∀ (tasks out : List STask), SchedOK tasks →
      topological_sort tasks = .ok out →
      ∃ rest, out.map (·.id) = initialFrontier tasks ++ rest) ∧
    (∀ tasks : List STask, SchedOK tasks → (∀ t ∈ tasks, t.deps = []) →
      topological_sort tasks = .ok tasks) := by
  refine ⟨fun ts1 ts2 h => by rw [h], ?_, ?_⟩
  · intro tasks out S h
    obtain ⟨r, indF, hrun, ⟨rest, hpre⟩, hfin⟩ := topo_run S
    rw [topological_sort_def, hrun, nodesOf_eq_self S.idsNodup] at h
    by_cases hc : r.length = tasks.length
    · rw [if_pos hc] at h
      have hout : out = r.filterMap (fun i => tasks.find? (fun t => t.id = i)) := by
        have h' := h
        simp only [Except.ok.injEq] at h'
        exact h'.symm
      rw [hout, filterMap_find_map_id S r (fun i hi => hfin.resIds i hi)]
      exact ⟨rest, hpre⟩
    · rw [if_neg hc] at h
      exact absurd h (by simp)
  · intro tasks S hnodeps
    obtain ⟨r, indF, hrun, ⟨rest, hpre⟩, hfin⟩ := topo_run S
    have hseeds : initialFrontier tasks = idsOf tasks := by
      unfold initialFrontier
      rw [nodesOf_eq_self S.idsNodup]
      apply List.filter_eq_self.2
      intro i hi
      rcases List.mem_map.1 hi with ⟨t, ht, rfl⟩
      apply decide_eq_true
      rw [buildIndegree_eq_depsLen S.idsNodup ht, hnodeps t ht]
      rfl
    have hrest : rest = [] := by
      cases hxs : rest with
      | nil => rfl
      | cons x xs =>
        exfalso
        have hx : x ∈ r := by
          rw [hpre, hxs]
          exact List.mem_append_right _ (List.mem_cons_self _ _)
        have hxids : x ∈ idsOf tasks := hfin.resIds x hx
        have hnd := hfin.resNodup
        rw [hpre, hxs, List.nodup_append] at hnd
        exact hnd.2.2 (hseeds ▸ hxids) (List.mem_cons_self _ _)
    have hr : r = idsOf tasks := by
      rw [hpre, hrest, hseeds, List.append_nil]
    have hlen : r.length = tasks.length := by
      rw [hr]
      simp [idsOf]
    rw [topological_sort_def, hrun, nodesOf_eq_self S.idsNodup,
      if_pos (by rw [hlen]), hr]
    exact congrArg Except.ok (filterMap_find_self S tasks (fun t ht => ht))

theorem order_deterministic_fifo_witness :
    topological_sort [⟨5, []⟩, ⟨3, []⟩, ⟨9, []⟩] =
      topological_sort [⟨5, []⟩, ⟨3, []⟩, ⟨9, []⟩] ∧
    (∃ rest, ([⟨5, []⟩, ⟨3, []⟩, ⟨9, []⟩] : List STask).map (·.id) =
      initialFrontier [⟨5, []⟩, ⟨3, []⟩, ⟨9, []⟩] ++ rest) ∧
    topological_sort [⟨5, []⟩, ⟨3, []⟩, ⟨9, []⟩] =
      .ok [⟨5, []⟩, ⟨3, []⟩, ⟨9, []⟩] :=
  ⟨order_deterministic_fifo.1 _ _ rfl,
   order_deterministic_fifo.2.1 [⟨5, []⟩, ⟨3, []⟩, ⟨9, []⟩]
     [⟨5, []⟩, ⟨3, []⟩, ⟨9, []⟩] ⟨by decide, by decide⟩ (by rfl),
   order_deterministic_fifo.2.2 [⟨5, []⟩, ⟨3, []⟩, ⟨9, []⟩]
     ⟨by decide, by decide⟩ (by decide)⟩

/-- C10: a failing attempt with retries remaining creates no `TaskResult`
    row of any status, leaves the task's status at `running`, and only
    raises the delayed retry. -/
theorem retry_leaves_no_trace (task : MTask) (retries : Nat) (pdf pff : Bool)
    (clk : Nat → Nat) (k : Nat) (h : retries < maxRetries) :
    (execute_task_inv task retries true false pdf pff clk k).results = [] ∧
    (execute_task_inv task retries true false pdf pff clk k).task.status =
      .running ∧
    (execute_task_inv task retries true false pdf pff clk k).fin =
      .retryRaised (backoffCountdown retries) := by
  have hsr : shouldRetry retries = true := by simp [shouldRetry, h]
  refine ⟨?_, ?_, ?_⟩ <;> simp [execute_task_inv, exceptBranch, hsr]

theorem retry_leaves_no_trace_witness :
    0 < maxRetries ∧
    ((execute_task_inv ⟨1, .pending, none, none⟩ 0 true false false false
        (fun n => n) 0).results = [] ∧
     (execute_task_inv ⟨1, .pending, none, none⟩ 0 true false false false
        (fun n => n) 0).task.status = .running ∧
     (execute_task_inv ⟨1, .pending, none, none⟩ 0 true false false false
        (fun n => n) 0).fin = .retryRaised (backoffCountdown 0)) :=
  ⟨by decide, retry_leaves_no_trace ⟨1, .pending, none, none⟩ 0 false false
    (fun n => n) 0 (by decide)⟩

end FlowState
